import Mathlib

/-!
Shallow embedding of the `hashmapper` Rust crate: a bucketed hash map
(`src/lib.rs`, `src/bucket.rs`, `src/entry.rs`, `src/indexing.rs`,
`src/key_values.rs`).

Modelling conventions:
* Rust `Vec` becomes `List`; `usize`/`u64` become `Nat` (indices produced by
  `digest % len` are always reduced modulo the bucket count, exactly as in the
  source, so no further wrap-around matters).
* The hashing collaborator (`DefaultHasher`) is modelled by a parameter
  `h : List K → Nat`: `h ks` is the value of `finish()` on a fresh hasher
  after the keys `ks` have been written to it in order.  A fresh per-key
  digest is `h [k]`.  This matters because `HashMap::resize` creates one
  hasher outside its drain loop and keeps feeding keys into it.
* Rust panics (remainder by zero, `Option::unwrap` on `None`) are modelled by
  the `Ret` result type: `Ret.panicked` is an aborted computation.
-/

set_option autoImplicit false

namespace Hashmapper

/-- Result of a Rust computation that can panic (remainder by zero,
`unwrap` on `None`). -/
inductive Ret (α : Type) where
  | panicked : Ret α
  | ok : α → Ret α
  deriving DecidableEq, Repr

variable {K V : Type} [DecidableEq K]

/-! ## Bucket (`src/bucket.rs`) -/

/-- `Bucket<K, V>`: the collision chain for one hash slot (`src/bucket.rs`). -/
structure Bucket (K V : Type) where
  items : List (K × V)
  deriving DecidableEq, Repr

/-- `Bucket::new` / `Default`: empty item vector. -/
def Bucket.new : Bucket K V := ⟨[]⟩

/-- Loop body of `Bucket::get`: linear scan, first pair whose key is equal. -/
def bucketGet (key : K) : List (K × V) → Option V
  | [] => none
  | (k, v) :: rest => if k = key then some v else bucketGet key rest

/-- `Bucket::get`. -/
def Bucket.get (b : Bucket K V) (key : K) : Option V :=
  bucketGet key b.items

/-- `Bucket::contains_key`: `self.items.iter().any(|(k, _)| k == key)`. -/
def Bucket.containsKey (b : Bucket K V) (key : K) : Bool :=
  b.items.any (fun p => p.1 = key)

/-- Loop body of `Bucket::insert`: replace the value of the first pair with an
equal key in place and return the previous value, else append the new pair. -/
def bucketInsert (key : K) (value : V) : List (K × V) → Option V × List (K × V)
  | [] => (none, [(key, value)])
  | (k, v) :: rest =>
    if k = key then (some v, (k, value) :: rest)
    else
      let r := bucketInsert key value rest
      (r.1, (k, v) :: r.2)

/-- `Bucket::insert`. -/
def Bucket.insert (b : Bucket K V) (key : K) (value : V) : Option V × Bucket K V :=
  let r := bucketInsert key value b.items
  (r.1, ⟨r.2⟩)

/-- `Vec::swap_remove(i)`: replace the element at `i` with the last element
and pop the last element. -/
def swapRemove {α : Type} (l : List α) (i : Nat) : List α :=
  match l.getLast? with
  | none => l
  | some last => (l.set i last).dropLast

/-- `Iterator::position`: index of the first element satisfying `p`. -/
def position {α : Type} (p : α → Bool) : List α → Option Nat
  | [] => none
  | x :: xs => if p x then some 0 else (position p xs).map (· + 1)

/-- `Bucket::remove`: position of the first equal key, then `swap_remove`. -/
def Bucket.remove (b : Bucket K V) (key : K) : Option V × Bucket K V :=
  match position (fun p => p.1 = key) b.items with
  | none => (none, b)
  | some i => ((b.items.get? i).map Prod.snd, ⟨swapRemove b.items i⟩)

/-- `Bucket::at`: positional access (`self.items.get(idx)`). -/
def Bucket.at (b : Bucket K V) (idx : Nat) : Option (K × V) :=
  b.items.get? idx

/-! ## HashMap (`src/lib.rs`) -/

/-- `HashMap<K, V>`: a vector of buckets plus a live-item count. -/
structure HashMap (K V : Type) where
  buckets : List (Bucket K V)
  numItems : Nat
  deriving DecidableEq, Repr

/-- `HashMap::new` / `Default`: no buckets, zero items. -/
def HashMap.new : HashMap K V := ⟨[], 0⟩

/-- `HashMap::get`: fresh digest of the key, reduced modulo the bucket count.
`hasher.finish() % self.buckets.len()` panics in Rust when the bucket vector
is empty (remainder by zero); there is no emptiness guard in the source. -/
def HashMap.get (h : List K → Nat) (m : HashMap K V) (key : K) : Ret (Option V) :=
  if m.buckets.length = 0 then .panicked
  else .ok ((m.buckets.getD (h [key] % m.buckets.length) Bucket.new).get key)

/-- `HashMap::get_mut`: identical routing to `get` (the returned reference
points at the value `Bucket::get_mut` finds). -/
def HashMap.getMut (h : List K → Nat) (m : HashMap K V) (key : K) : Ret (Option V) :=
  if m.buckets.length = 0 then .panicked
  else .ok ((m.buckets.getD (h [key] % m.buckets.length) Bucket.new).get key)

/-- `HashMap::contains_key`: short-circuits to `false` when `num_items == 0`,
otherwise routes by `digest % len` (which panics when the bucket vector is
empty). -/
def HashMap.containsKey (h : List K → Nat) (m : HashMap K V) (key : K) : Ret Bool :=
  if m.numItems = 0 then .ok false
  else if m.buckets.length = 0 then .panicked
  else .ok ((m.buckets.getD (h [key] % m.buckets.length) Bucket.new).containsKey key)

/-- Drain loop of `HashMap::resize`: the pairs of all old buckets, in bucket
order, are reinserted into `bs`.  The single hasher created before the loop
accumulates every key it is fed, so the slot of each pair is computed from
the digest of `hashed ++ [k]` — all keys hashed so far — not from a fresh
digest of `k` alone. -/
def resizeInsertAll (h : List K → Nat) :
    List (K × V) → List K → List (Bucket K V) → List (Bucket K V)
  | [], _, bs => bs
  | (k, v) :: rest, hashed, bs =>
    let hashed2 := hashed ++ [k]
    let idx := h hashed2 % bs.length
    resizeInsertAll h rest hashed2
      (bs.set idx ((bs.getD idx Bucket.new).insert k v).2)

/-- `HashMap::resize`: new capacity 1024 from empty, else double; drain every
old bucket and reinsert each pair through the shared accumulating hasher. -/
def HashMap.resize (h : List K → Nat) (m : HashMap K V) : HashMap K V :=
  let targetSize := match m.buckets.length with
    | 0 => 1024
    | n => 2 * n
  ⟨resizeInsertAll h ((m.buckets.map Bucket.items).flatten) []
      (List.replicate targetSize Bucket.new),
   m.numItems⟩

/-- Head of `HashMap::insert` / `insert_mut`: `let l = self.buckets.len();
if l == 0 || self.num_items > 3 * l { self.resize(); }`. -/
def HashMap.growIfNeeded (h : List K → Nat) (m : HashMap K V) : HashMap K V :=
  if m.buckets.length = 0 ∨ m.numItems > 3 * m.buckets.length then m.resize h else m

/-- Guard at the head of `HashMap::get_bucket_mut`:
`if self.buckets.is_empty() { self.resize(); }`. -/
def HashMap.ensureBuckets (h : List K → Nat) (m : HashMap K V) : HashMap K V :=
  if m.buckets.length = 0 then m.resize h else m

/-- `HashMap::insert`: resize check on the old length and old count, then the
unconditional `num_items += 1`, then `get_bucket_mut` (which re-checks
emptiness and would resize again) and `Bucket::insert`. -/
def HashMap.insert (h : List K → Nat) (m : HashMap K V) (key : K) (value : V) :
    Option V × HashMap K V :=
  let m2 : HashMap K V := ⟨(m.growIfNeeded h).buckets, (m.growIfNeeded h).numItems + 1⟩
  let m3 := m2.ensureBuckets h
  let idx := h [key] % m3.buckets.length
  let r := (m3.buckets.getD idx Bucket.new).insert key value
  (r.1, ⟨m3.buckets.set idx r.2, m3.numItems⟩)

/-- `Bucket::insert_mut`, the bucket-level operation behind
`HashMap::insert_mut`.  Modelled from the spec: `Bucket::insert_mut` is
called at `src/lib.rs` line 98 but its definition is absent from
`src/bucket.rs`; per the spec (§4.2) it performs the same placement algorithm
as `insert` and returns a live handle to the stored value instead of the
displaced one, so its resulting bucket state is that of `Bucket::insert`. -/
def Bucket.insertMut (b : Bucket K V) (key : K) (value : V) : Bucket K V :=
  (b.insert key value).2

/-- `HashMap::insert_mut`: same resize check, unconditional count increment
and routing as `insert`; only the return value differs (a mutable handle to
the stored value). -/
def HashMap.insertMut (h : List K → Nat) (m : HashMap K V) (key : K) (value : V) :
    HashMap K V :=
  let m2 : HashMap K V := ⟨(m.growIfNeeded h).buckets, (m.growIfNeeded h).numItems + 1⟩
  let m3 := m2.ensureBuckets h
  let idx := h [key] % m3.buckets.length
  ⟨m3.buckets.set idx ((m3.buckets.getD idx Bucket.new).insertMut key value), m3.numItems⟩

/-- `HashMap::remove`: `digest % len` (panics on an empty bucket vector),
delegate to `Bucket::remove`, decrement `num_items` only when a pair was
actually removed. -/
def HashMap.removeRet (h : List K → Nat) (m : HashMap K V) (key : K) :
    Ret (Option V × HashMap K V) :=
  if m.buckets.length = 0 then .panicked
  else
    let idx := h [key] % m.buckets.length
    let r := (m.buckets.getD idx Bucket.new).remove key
    .ok (r.1, ⟨m.buckets.set idx r.2,
               if r.1.isSome then m.numItems - 1 else m.numItems⟩)

/-- `HashMap::len`. -/
def HashMap.len (m : HashMap K V) : Nat := m.numItems

/-- `HashMap::is_empty`. -/
def HashMap.isEmpty (m : HashMap K V) : Bool := m.numItems = 0

/-! ## Indexing sugar (`src/indexing.rs`) -/

/-- `Index::index` for `HashMap`: `self.get(index).unwrap()`. A panic inside
`get` propagates, and `unwrap` panics when `get` returns `None`. -/
def HashMap.index (h : List K → Nat) (m : HashMap K V) (key : K) : Ret V :=
  match m.get h key with
  | .panicked => .panicked
  | .ok none => .panicked
  | .ok (some v) => .ok v

/-! ## Entry API (`src/entry.rs`)

An `Entry` borrows the map mutably; we model each construction-plus-terminal
use as one state transformer on the map. -/

/-- Mutate the value of the first pair with an equal key, in place: the
effect on a bucket of writing through the reference `Bucket::get_mut`
returned. -/
def modifyFirst (f : V → V) (key : K) : List (K × V) → List (K × V)
  | [] => []
  | (k, v) :: rest =>
    if k = key then (k, f v) :: rest else (k, v) :: modifyFirst f key rest

/-- `Entry::new` followed by `or_insert(val)`: `Entry::new` tests
`contains_key` (whose panic would propagate); a `Vacant` entry inserts via
`insert_mut`, an `Occupied` entry leaves the map unchanged. -/
def HashMap.entryOrInsert (h : List K → Nat) (m : HashMap K V) (key : K) (val : V) :
    Ret (HashMap K V) :=
  match m.containsKey h key with
  | .panicked => .panicked
  | .ok true => .ok m
  | .ok false => .ok (m.insertMut h key val)

/-- `Entry::new` followed by `and_modify(f)` and dropping the entry: on an
`Occupied` entry `f` mutates the stored value through the `get_mut`
reference; a `Vacant` entry passes through unchanged. -/
def HashMap.entryAndModify (h : List K → Nat) (m : HashMap K V) (key : K) (f : V → V) :
    Ret (HashMap K V) :=
  match m.containsKey h key with
  | .panicked => .panicked
  | .ok false => .ok m
  | .ok true =>
    if m.buckets.length = 0 then .panicked
    else
      let idx := h [key] % m.buckets.length
      .ok ⟨m.buckets.set idx ⟨modifyFirst f key (m.buckets.getD idx Bucket.new).items⟩,
           m.numItems⟩

/-! ## Iterators (`src/lib.rs` lines 158-201, `src/key_values.rs`) -/

/-- The `loop` inside `HashMapIterator::next`: look at bucket `bidx` position
`bat`; past the end of a bucket, move to the next bucket at position 0;
out of buckets means exhausted.  A yield returns the pair together with the
updated cursor. -/
def iterLoop (m : HashMap K V) (bidx bat : Nat) : Option ((K × V) × Nat × Nat) :=
  match hb : m.buckets.get? bidx with
  | none => none
  | some bkt =>
    match bkt.at bat with
    | none => iterLoop m (bidx + 1) 0
    | some p => some (p, bidx, bat + 1)
termination_by m.buckets.length - bidx
decreasing_by
  have hlt : bidx < m.buckets.length := by
    cases List.get?_eq_some.mp hb with
    | intro hw _ => exact hw
  omega

/-- `HashMapIterator::next`: immediately exhausted when `num_items == 0`,
otherwise run the bucket-walking loop. -/
def iterNext (m : HashMap K V) (bidx bat : Nat) : Option ((K × V) × Nat × Nat) :=
  if m.numItems = 0 then none
  else iterLoop m bidx bat

/-- Repeatedly calling `next` on the full-pair iterator, collecting the
yielded pairs (with fuel; any fuel at least the number of yields gives the
full traversal). -/
def iterCollect (m : HashMap K V) : Nat → Nat → Nat → List (K × V)
  | _, _, 0 => []
  | bidx, bat, fuel + 1 =>
    match iterNext m bidx bat with
    | none => []
    | some (p, bidx2, bat2) => p :: iterCollect m bidx2 bat2 fuel

/-- `ValuesMut::next` (`src/key_values.rs` lines 64-93): after the
`num_items == 0` early return, the bucket-walking body is commented out and
the function unconditionally returns `None`. -/
def valuesMutNext (m : HashMap K V) (bidx bat : Nat) : Option (V × Nat × Nat) :=
  if m.numItems = 0 then none
  else none

/-! ## Reachable states

The public mutating operations as a step relation, starting from
`HashMap::new`.  A Rust panic aborts the program, so a panicking call
produces no successor state. -/

/-- One public mutating operation.  `get`, `get_mut`, `contains_key`, `len`,
`is_empty`, indexing and the iterators do not change the map. -/
inductive Step (h : List K → Nat) : HashMap K V → HashMap K V → Prop where
  | insert {m : HashMap K V} (k : K) (v : V) : Step h m (m.insert h k v).2
  | insertMut {m : HashMap K V} (k : K) (v : V) : Step h m (m.insertMut h k v)
  | remove {m m2 : HashMap K V} (k : K) (r : Option V) :
      m.removeRet h k = .ok (r, m2) → Step h m m2
  | entryOrInsert {m m2 : HashMap K V} (k : K) (v : V) :
      m.entryOrInsert h k v = .ok m2 → Step h m m2
  | entryAndModify {m m2 : HashMap K V} (k : K) (f : V → V) :
      m.entryAndModify h k f = .ok m2 → Step h m m2

/-- States reachable from a fresh `HashMap::new` by public operations. -/
def Reachable (h : List K → Nat) (m : HashMap K V) : Prop :=
  Relation.ReflTransGen (Step h) HashMap.new m

/-- Total number of pairs stored across all buckets. -/
def bucketSum (m : HashMap K V) : Nat :=
  (m.buckets.map (fun b => b.items.length)).sum

/-! ## List helper lemmas -/

theorem getD_set_self {α : Type} (l : List α) (i : Nat) (a d : α)
    (hi : i < l.length) : (l.set i a).getD i d = a := by
  induction l generalizing i with
  | nil => simp at hi
  | cons x xs ih =>
    cases i with
    | zero => rfl
    | succ j => simpa using ih j (by simpa using hi)

theorem set_getD_self {α : Type} (l : List α) (i : Nat) (d : α)
    (hi : i < l.length) : l.set i (l.getD i d) = l := by
  induction l generalizing i with
  | nil => simp at hi
  | cons x xs ih =>
    cases i with
    | zero => rfl
    | succ j => simpa using ih j (by simpa using hi)

theorem mem_of_mem_set {α : Type} {l : List α} {i : Nat} {a b : α}
    (hm : b ∈ l.set i a) : b ∈ l ∨ b = a := by
  induction l generalizing i with
  | nil => simp at hm
  | cons x xs ih =>
    cases i with
    | zero =>
      rcases List.mem_cons.mp hm with hx | hx
      · exact Or.inr hx
      · exact Or.inl (List.mem_cons_of_mem _ hx)
    | succ j =>
      rcases List.mem_cons.mp hm with hx | hx
      · exact Or.inl (hx ▸ List.mem_cons_self _ _)
      · rcases ih hx with hy | hy
        · exact Or.inl (List.mem_cons_of_mem _ hy)
        · exact Or.inr hy

/-- Effect of `List.set` on a summed map, stated without truncated
subtraction. -/
theorem sum_map_set {α : Type} (f : α → Nat) (l : List α) (i : Nat) (b d : α)
    (hi : i < l.length) :
    ((l.set i b).map f).sum + f (l.getD i d) = (l.map f).sum + f b := by
  induction l generalizing i with
  | nil => simp at hi
  | cons x xs ih =>
    cases i with
    | zero => simp [List.set]; omega
    | succ j =>
      have := ih j (by simpa using hi)
      simp [List.set] at this ⊢
      omega

/-! ## Bucket lemmas -/

theorem bucketInsert_length_le (k : K) (v : V) (l : List (K × V)) :
    (bucketInsert k v l).2.length ≤ l.length + 1 := by
  induction l with
  | nil => simp [bucketInsert]
  | cons x xs ih =>
    rcases x with ⟨k0, v0⟩
    by_cases hk : k0 = k <;> simp [bucketInsert, hk] <;> omega

theorem bucketGet_bucketInsert (k : K) (v : V) (l : List (K × V)) :
    bucketGet k (bucketInsert k v l).2 = some v := by
  induction l with
  | nil => simp [bucketInsert, bucketGet]
  | cons x xs ih =>
    rcases x with ⟨k0, v0⟩
    by_cases hk : k0 = k <;> simp [bucketInsert, bucketGet, hk, ih]

theorem position_lt_length {α : Type} {p : α → Bool} {l : List α} {i : Nat}
    (hp : position p l = some i) : i < l.length := by
  induction l generalizing i with
  | nil => simp [position] at hp
  | cons x xs ih =>
    by_cases hx : p x
    · simp [position, hx] at hp
      simp
      omega
    · simp [position, hx] at hp
      rcases hp with ⟨j, hj, rfl⟩
      have := ih hj
      simp
      omega

theorem position_eq_none {α : Type} {p : α → Bool} {l : List α}
    (hall : ∀ x ∈ l, p x = false) : position p l = none := by
  induction l with
  | nil => rfl
  | cons x xs ih =>
    have hx := hall x (List.mem_cons_self _ _)
    simp [position, hx]
    exact ih fun y hy => hall y (List.mem_cons_of_mem _ hy)

theorem bucketGet_none_forall {k : K} {l : List (K × V)}
    (hg : bucketGet k l = none) : ∀ p ∈ l, p.1 ≠ k := by
  induction l with
  | nil => simp
  | cons x xs ih =>
    rcases x with ⟨k0, v0⟩
    by_cases hk : k0 = k
    · simp [bucketGet, hk] at hg
    · simp [bucketGet, hk] at hg
      intro p hp
      rcases List.mem_cons.mp hp with hx | hx
      · simpa [hx] using hk
      · exact ih hg p hx

theorem swapRemove_length {α : Type} (l : List α) (i : Nat) (hne : l ≠ []) :
    (swapRemove l i).length = l.length - 1 := by
  rcases hl : l.getLast? with _ | a
  · rw [List.getLast?_eq_none_iff] at hl
    exact absurd hl hne
  · simp [swapRemove, hl, List.length_dropLast, List.length_set]

/-- Characterization of `Bucket::remove` when the key is absent. -/
theorem bucket_remove_absent (b : Bucket K V) (k : K)
    (hg : b.get k = none) : b.remove k = (none, b) := by
  have : position (fun p => p.1 = k) b.items = none := by
    apply position_eq_none
    intro x hx
    simpa using bucketGet_none_forall hg x hx
  simp [Bucket.remove, this]

/-- Characterization of `Bucket::remove` when a pair is removed: the bucket
shrinks by exactly one pair. -/
theorem bucket_remove_found (b : Bucket K V) (k : K) {i : Nat}
    (hp : position (fun p => p.1 = k) b.items = some i) :
    (b.remove k).1.isSome = true ∧
      (b.remove k).2.items.length + 1 = b.items.length := by
  have hi : i < b.items.length := position_lt_length hp
  have hne : b.items ≠ [] := by
    intro hnil
    rw [hnil] at hi
    simp at hi
  have hget : b.items[i]? = some (b.items.get ⟨i, hi⟩) := by
    rw [List.getElem?_eq_getElem hi]
    rfl
  constructor
  · simp [Bucket.remove, hp, hget]
  · simp [Bucket.remove, hp, swapRemove_length _ _ hne]
    omega

/-! ## Resize and insert lemmas -/

/-- Total pair count of a bucket vector. -/
def sumLenB (bs : List (Bucket K V)) : Nat :=
  (bs.map (fun b => b.items.length)).sum

theorem bucketSum_eq (m : HashMap K V) : bucketSum m = sumLenB m.buckets := rfl

theorem sumLenB_replicate_new (n : Nat) :
    sumLenB (List.replicate n (Bucket.new : Bucket K V)) = 0 := by
  induction n with
  | zero => rfl
  | succ j ih => simpa [sumLenB, List.replicate, Bucket.new] using ih

/-- Effect of replacing one bucket on the total pair count. -/
theorem sumLenB_set (bs : List (Bucket K V)) (i : Nat) (b : Bucket K V)
    (hi : i < bs.length) :
    sumLenB (bs.set i b) + (bs.getD i Bucket.new).items.length
      = sumLenB bs + b.items.length := by
  simpa [sumLenB] using sum_map_set (fun b => b.items.length) bs i b Bucket.new hi

/-- Setting one bucket changes the total pair count by at most the size of
the new bucket. -/
theorem sumLenB_set_le (bs : List (Bucket K V)) (i : Nat) (b : Bucket K V)
    (hb : b.items.length ≤ (bs.getD i Bucket.new).items.length + 1) :
    sumLenB (bs.set i b) ≤ sumLenB bs + 1 := by
  by_cases hi : i < bs.length
  · have := sumLenB_set bs i b hi
    omega
  · rw [List.set_eq_of_length_le (by omega)]
    omega

theorem resizeInsertAll_length (h : List K → Nat) (ps : List (K × V))
    (ks : List K) (bs : List (Bucket K V)) :
    (resizeInsertAll h ps ks bs).length = bs.length := by
  induction ps generalizing ks bs with
  | nil => rfl
  | cons p rest ih =>
    rcases p with ⟨k, v⟩
    simp [resizeInsertAll, ih, List.length_set]

theorem sumLenB_resizeInsertAll_le (h : List K → Nat) (ps : List (K × V))
    (ks : List K) (bs : List (Bucket K V)) :
    sumLenB (resizeInsertAll h ps ks bs) ≤ sumLenB bs + ps.length := by
  induction ps generalizing ks bs with
  | nil => simp [resizeInsertAll]
  | cons p rest ih =>
    rcases p with ⟨k, v⟩
    have hstep : sumLenB (bs.set (h (ks ++ [k]) % bs.length)
        ((bs.getD (h (ks ++ [k]) % bs.length) Bucket.new).insert k v).2) ≤
        sumLenB bs + 1 := by
      apply sumLenB_set_le
      exact bucketInsert_length_le k v _
    calc sumLenB (resizeInsertAll h ((k, v) :: rest) ks bs)
        ≤ sumLenB (bs.set (h (ks ++ [k]) % bs.length)
            ((bs.getD (h (ks ++ [k]) % bs.length) Bucket.new).insert k v).2)
            + rest.length := ih _ _
      _ ≤ sumLenB bs + 1 + rest.length := by omega
      _ = sumLenB bs + ((k, v) :: rest).length := by simp; omega

theorem resize_numItems (h : List K → Nat) (m : HashMap K V) :
    (m.resize h).numItems = m.numItems := rfl

theorem resize_buckets_pos (h : List K → Nat) (m : HashMap K V) :
    0 < (m.resize h).buckets.length := by
  show 0 < (resizeInsertAll h _ _ _).length
  rw [resizeInsertAll_length, List.length_replicate]
  cases m.buckets.length <;> simp

theorem resize_bucketSum_le (h : List K → Nat) (m : HashMap K V) :
    bucketSum (m.resize h) ≤ bucketSum m := by
  have hle := sumLenB_resizeInsertAll_le h ((m.buckets.map Bucket.items).flatten) []
    (List.replicate (match m.buckets.length with | 0 => 1024 | n => 2 * n) Bucket.new)
  have hflat : ((m.buckets.map Bucket.items).flatten).length = bucketSum m := by
    rw [List.length_flatten, List.map_map]
    rfl
  rw [sumLenB_replicate_new] at hle
  calc bucketSum (m.resize h) = sumLenB (m.resize h).buckets := rfl
    _ ≤ 0 + ((m.buckets.map Bucket.items).flatten).length := hle
    _ = bucketSum m := by omega

theorem growIfNeeded_numItems (h : List K → Nat) (m : HashMap K V) :
    (m.growIfNeeded h).numItems = m.numItems := by
  unfold HashMap.growIfNeeded
  split <;> rfl

theorem growIfNeeded_bucketSum_le (h : List K → Nat) (m : HashMap K V) :
    bucketSum (m.growIfNeeded h) ≤ bucketSum m := by
  unfold HashMap.growIfNeeded
  split
  · exact resize_bucketSum_le h m
  · omega

theorem ensureBuckets_pos (h : List K → Nat) (m : HashMap K V) :
    0 < (m.ensureBuckets h).buckets.length := by
  unfold HashMap.ensureBuckets
  split
  case isTrue => exact resize_buckets_pos h m
  case isFalse hne => omega

theorem ensureBuckets_numItems (h : List K → Nat) (m : HashMap K V) :
    (m.ensureBuckets h).numItems = m.numItems := by
  unfold HashMap.ensureBuckets
  split <;> rfl

theorem ensureBuckets_bucketSum_le (h : List K → Nat) (m : HashMap K V) :
    bucketSum (m.ensureBuckets h) ≤ bucketSum m := by
  unfold HashMap.ensureBuckets
  split
  · exact resize_bucketSum_le h m
  · omega

/-- The final placement step shared by `insert` and `insert_mut`: the
resulting map has one more `num_items`, a non-empty bucket vector, and at
most one more stored pair than before. -/
theorem insert_snd_fields (h : List K → Nat) (m : HashMap K V) (k : K) (v : V) :
    (m.insert h k v).2.numItems = m.numItems + 1 ∧
    0 < (m.insert h k v).2.buckets.length ∧
    bucketSum (m.insert h k v).2 ≤ bucketSum m + 1 := by
  unfold HashMap.insert
  set m2 : HashMap K V :=
    ⟨(m.growIfNeeded h).buckets, (m.growIfNeeded h).numItems + 1⟩ with hm2
  set m3 := m2.ensureBuckets h with hm3
  have hpos3 : 0 < m3.buckets.length := ensureBuckets_pos h m2
  have hnum3 : m3.numItems = m.numItems + 1 := by
    rw [hm3, ensureBuckets_numItems, hm2]
    simp [growIfNeeded_numItems]
  have hsum3 : bucketSum m3 ≤ bucketSum m := by
    have h1 : bucketSum m3 ≤ bucketSum m2 := ensureBuckets_bucketSum_le h m2
    have h2 : bucketSum m2 = bucketSum (m.growIfNeeded h) := rfl
    have h3 := growIfNeeded_bucketSum_le h m
    omega
  refine ⟨hnum3, ?_, ?_⟩
  · simpa [List.length_set] using hpos3
  · have hle := sumLenB_set_le m3.buckets (h [k] % m3.buckets.length)
      ((m3.buckets.getD (h [k] % m3.buckets.length) Bucket.new).insert k v).2
      (bucketInsert_length_le k v _)
    have hfold : bucketSum m3 = sumLenB m3.buckets := rfl
    show sumLenB (m3.buckets.set (h [k] % m3.buckets.length)
      ((m3.buckets.getD (h [k] % m3.buckets.length) Bucket.new).insert k v).2)
      ≤ bucketSum m + 1
    omega

/-- `insert_mut` reaches exactly the state `insert` reaches. -/
theorem insertMut_eq_insert_snd (h : List K → Nat) (m : HashMap K V) (k : K) (v : V) :
    m.insertMut h k v = (m.insert h k v).2 := rfl

/-! ## The reachable-state invariant -/

theorem modifyFirst_length (f : V → V) (k : K) (l : List (K × V)) :
    (modifyFirst f k l).length = l.length := by
  induction l with
  | nil => rfl
  | cons x xs ih =>
    rcases x with ⟨k0, v0⟩
    by_cases hk : k0 = k <;> simp [modifyFirst, hk, ih]

/-- The invariant that actually holds in every reachable state: the live-item
counter dominates the stored-pair count, and a positive counter implies a
non-empty bucket vector. -/
def Inv (m : HashMap K V) : Prop :=
  bucketSum m ≤ m.numItems ∧ (m.numItems ≠ 0 → m.buckets ≠ [])

theorem inv_new : Inv (HashMap.new : HashMap K V) := by
  constructor
  · simp [bucketSum, HashMap.new, sumLenB]
  · intro hn
    exact absurd rfl hn

theorem inv_insert (h : List K → Nat) (m : HashMap K V) (k : K) (v : V)
    (hm : Inv m) : Inv (m.insert h k v).2 := by
  obtain ⟨hnum, hpos, hsum⟩ := insert_snd_fields h m k v
  have hinv := hm.1
  constructor
  · omega
  · intro _
    exact List.ne_nil_of_length_pos hpos

theorem inv_remove (h : List K → Nat) (m m2 : HashMap K V) (k : K) (r : Option V)
    (hrem : m.removeRet h k = .ok (r, m2)) (hm : Inv m) : Inv m2 := by
  unfold HashMap.removeRet at hrem
  by_cases hlen : m.buckets.length = 0
  · simp [hlen] at hrem
  · rw [if_neg hlen] at hrem
    simp only [Ret.ok.injEq, Prod.mk.injEq] at hrem
    obtain ⟨hr, hm2⟩ := hrem
    have hidx : h [k] % m.buckets.length < m.buckets.length :=
      Nat.mod_lt _ (by omega)
    set b := m.buckets.getD (h [k] % m.buckets.length) Bucket.new with hb
    cases hpos : position (fun p => p.1 = k) b.items with
    | none =>
      have hrb : b.remove k = (none, b) := by
        simp [Bucket.remove, hpos]
      have hbuckets : m2.buckets = m.buckets := by
        rw [← hm2]
        simp only [hrb]
        exact set_getD_self m.buckets _ Bucket.new hidx
      have hnum2 : m2.numItems = m.numItems := by
        rw [← hm2]
        simp [hrb]
      constructor
      · rw [bucketSum_eq, hbuckets, hnum2]
        exact hm.1
      · intro hn
        rw [hbuckets]
        exact hm.2 (by omega)
    | some i =>
      obtain ⟨hsome, hlen2⟩ := bucket_remove_found b k hpos
      have hset := sumLenB_set m.buckets (h [k] % m.buckets.length)
        (b.remove k).2 hidx
      rw [← hb] at hset
      have hnum2 : m2.numItems = m.numItems - 1 := by
        rw [← hm2]
        simp [hsome]
      have hsum2 : bucketSum m2 + b.items.length
          = bucketSum m + (b.remove k).2.items.length := by
        rw [bucketSum_eq, bucketSum_eq, ← hm2]
        exact hset
      have hblen : m2.buckets.length = m.buckets.length := by
        rw [← hm2]
        simp [List.length_set]
      have hmem : b ∈ m.buckets := by
        rw [hb]
        rw [List.getD_eq_getElem?_getD]
        rw [List.getElem?_eq_getElem hidx]
        exact List.getElem_mem _
      have hble : b.items.length ≤ bucketSum m :=
        List.single_le_sum (fun x _ => Nat.zero_le x) _
          (List.mem_map_of_mem (fun b => b.items.length) hmem)
      constructor
      · have := hm.1
        omega
      · intro _
        apply List.ne_nil_of_length_pos
        omega

theorem inv_entryOrInsert (h : List K → Nat) (m m2 : HashMap K V) (k : K) (v : V)
    (he : m.entryOrInsert h k v = .ok m2) (hm : Inv m) : Inv m2 := by
  unfold HashMap.entryOrInsert at he
  cases hc : m.containsKey h k with
  | panicked => simp [hc] at he
  | ok b =>
    cases b with
    | true =>
      simp [hc] at he
      exact he ▸ hm
    | false =>
      simp [hc] at he
      rw [← he, insertMut_eq_insert_snd]
      exact inv_insert h m k v hm

theorem inv_entryAndModify (h : List K → Nat) (m m2 : HashMap K V) (k : K)
    (f : V → V) (he : m.entryAndModify h k f = .ok m2) (hm : Inv m) : Inv m2 := by
  unfold HashMap.entryAndModify at he
  cases hc : m.containsKey h k with
  | panicked => simp [hc] at he
  | ok b =>
    cases b with
    | false =>
      simp [hc] at he
      exact he ▸ hm
    | true =>
      rw [hc] at he
      by_cases hlen : m.buckets.length = 0
      · simp [hlen] at he
      · rw [if_neg hlen] at he
        simp only [Ret.ok.injEq] at he
        have hidx : h [k] % m.buckets.length < m.buckets.length :=
          Nat.mod_lt _ (by omega)
        have hset := sumLenB_set m.buckets (h [k] % m.buckets.length)
          ⟨modifyFirst f k (m.buckets.getD (h [k] % m.buckets.length) Bucket.new).items⟩
          hidx
        rw [show (⟨modifyFirst f k (m.buckets.getD (h [k] % m.buckets.length)
            Bucket.new).items⟩ : Bucket K V).items.length
            = (m.buckets.getD (h [k] % m.buckets.length) Bucket.new).items.length
          from modifyFirst_length f k _] at hset
        constructor
        · rw [bucketSum_eq, ← he]
          have := hm.1
          rw [bucketSum_eq] at this
          simp only
          omega
        · intro hn
          rw [← he]
          simp only
          apply List.ne_nil_of_length_pos
          simp [List.length_set]
          omega

theorem inv_step (h : List K → Nat) {m m2 : HashMap K V}
    (hs : Step h m m2) (hm : Inv m) : Inv m2 := by
  cases hs with
  | insert k v => exact inv_insert h _ k v hm
  | insertMut k v =>
    rw [insertMut_eq_insert_snd]
    exact inv_insert h _ k v hm
  | remove k r hrem => exact inv_remove h _ _ k r hrem hm
  | entryOrInsert k v he => exact inv_entryOrInsert h _ _ k v he hm
  | entryAndModify k f he => exact inv_entryAndModify h _ _ k f he hm

/-- Every reachable state satisfies the invariant. -/
theorem reachable_inv (h : List K → Nat) {m : HashMap K V}
    (hr : Reachable h m) : Inv m := by
  induction hr with
  | refl => exact inv_new
  | tail _ hst ih => exact inv_step h hst ih

/-! ## Unfolding lemmas for concrete operation sequences -/

theorem getD_replicate {α : Type} (n i : Nat) (a d : α) (hi : i < n) :
    (List.replicate n a).getD i d = a := by
  induction n generalizing i with
  | zero => omega
  | succ j ih =>
    cases i with
    | zero => rfl
    | succ i2 => simpa [List.replicate] using ih i2 (by omega)

/-- The first insertion into a fresh map: the lazy 1024-bucket allocation
happens, the pair lands at slot `digest mod 1024`, the count becomes 1, and
nothing is displaced. -/
theorem insert_from_empty (h : List K → Nat) (k : K) (v : V) :
    HashMap.new.insert h k v
      = (none, ⟨(List.replicate 1024 (Bucket.new : Bucket K V)).set (h [k] % 1024)
          (⟨[(k, v)]⟩ : Bucket K V), 1⟩) := by
  have hgrow : (HashMap.new : HashMap K V).growIfNeeded h
      = ⟨List.replicate 1024 Bucket.new, 0⟩ := by
    unfold HashMap.growIfNeeded
    split
    · rfl
    · next hc => exact absurd (Or.inl rfl) hc
  have hens : HashMap.ensureBuckets h
      (⟨List.replicate 1024 Bucket.new, 1⟩ : HashMap K V)
      = ⟨List.replicate 1024 Bucket.new, 1⟩ := by
    unfold HashMap.ensureBuckets
    split
    · next hc =>
      rw [show (⟨List.replicate 1024 Bucket.new, 1⟩ : HashMap K V).buckets
          = List.replicate 1024 (Bucket.new : Bucket K V) from rfl,
        List.length_replicate] at hc
      omega
    · rfl
  unfold HashMap.insert
  rw [hgrow]
  simp only
  rw [hens]
  simp only [List.length_replicate]
  rw [getD_replicate 1024 (h [k] % 1024) Bucket.new Bucket.new
    (Nat.mod_lt _ (by omega))]
  rfl

/-- `insert` on a map that triggers no resize: route by fresh digest, place,
bump the counter. -/
theorem insert_no_resize (h : List K → Nat) (m : HashMap K V) (k : K) (v : V)
    (hl : m.buckets.length ≠ 0) (hn : ¬ m.numItems > 3 * m.buckets.length) :
    m.insert h k v
      = (((m.buckets.getD (h [k] % m.buckets.length) Bucket.new).insert k v).1,
        ⟨m.buckets.set (h [k] % m.buckets.length)
            ((m.buckets.getD (h [k] % m.buckets.length) Bucket.new).insert k v).2,
          m.numItems + 1⟩) := by
  have hgrow : m.growIfNeeded h = m := by
    unfold HashMap.growIfNeeded
    rw [if_neg (by push_neg; exact ⟨hl, by omega⟩)]
  have hens : HashMap.ensureBuckets h (⟨m.buckets, m.numItems + 1⟩ : HashMap K V)
      = ⟨m.buckets, m.numItems + 1⟩ := by
    unfold HashMap.ensureBuckets
    rw [if_neg hl]
  unfold HashMap.insert
  rw [hgrow]
  simp only
  rw [hens]

/-- `remove` on a map with a non-empty bucket vector, fully unfolded. -/
theorem removeRet_eq (h : List K → Nat) (m : HashMap K V) (k : K)
    (hl : m.buckets.length ≠ 0) :
    m.removeRet h k
      = .ok (((m.buckets.getD (h [k] % m.buckets.length) Bucket.new).remove k).1,
        ⟨m.buckets.set (h [k] % m.buckets.length)
            ((m.buckets.getD (h [k] % m.buckets.length) Bucket.new).remove k).2,
          if ((m.buckets.getD (h [k] % m.buckets.length) Bucket.new).remove k).1.isSome
            then m.numItems - 1 else m.numItems⟩) := by
  unfold HashMap.removeRet
  rw [if_neg hl]

/-- `get` finds the pair just placed at slot `digest mod len`. -/
theorem get_after_place (h : List K → Nat) (k : K) (v : V) (m3 : HashMap K V)
    (hpos : 0 < m3.buckets.length) :
    HashMap.get h
      (⟨m3.buckets.set (h [k] % m3.buckets.length)
          ((m3.buckets.getD (h [k] % m3.buckets.length) Bucket.new).insert k v).2,
        m3.numItems⟩ : HashMap K V) k
      = .ok (some v) := by
  unfold HashMap.get
  simp only [List.length_set]
  rw [if_neg (by omega)]
  rw [getD_set_self _ _ _ _ (Nat.mod_lt _ (by omega))]
  simp [Bucket.get, Bucket.insert, bucketGet_bucketInsert]

/-- The bucket-walking loop yields nothing when every bucket is empty. -/
theorem iterLoop_all_empty (m : HashMap K V)
    (hemp : ∀ b ∈ m.buckets, b.items = []) :
    ∀ n bidx, m.buckets.length ≤ bidx + n → iterLoop m bidx 0 = none := by
  intro n
  induction n with
  | zero =>
    intro bidx hle
    have hb : m.buckets.get? bidx = none := List.get?_len_le (by omega)
    rw [iterLoop]
    split
    · rfl
    · next bkt hsome =>
      rw [hb] at hsome
      cases hsome
  | succ n2 ih =>
    intro bidx hle
    rw [iterLoop]
    split
    · rfl
    · next bkt hsome =>
      have hmem : bkt ∈ m.buckets := List.get?_mem hsome
      have hat0 : bkt.at 0 = none := by
        simp [Bucket.at, hemp bkt hmem]
      rw [hat0]
      exact ih (bidx + 1) (by omega)

theorem sumLenB_replicate_set (n i : Nat) (hi : i < n) (b : Bucket K V) :
    sumLenB ((List.replicate n (Bucket.new : Bucket K V)).set i b) = b.items.length := by
  have hset := sumLenB_set (List.replicate n (Bucket.new : Bucket K V)) i b
    (by simpa using hi)
  rw [getD_replicate n i Bucket.new Bucket.new hi] at hset
  rw [sumLenB_replicate_new] at hset
  have : (Bucket.new : Bucket K V).items.length = 0 := rfl
  omega

/-- Inserting the same key twice into a fresh map: the second insert
displaces the first value inside the single occupied bucket, yet the item
counter is bumped to 2. -/
theorem double_insert_state (h : List K → Nat) (k : K) (v1 v2 : V) :
    (HashMap.new.insert h k v1).2.insert h k v2
      = (some v1, ⟨(List.replicate 1024 (Bucket.new : Bucket K V)).set (h [k] % 1024)
          (⟨[(k, v2)]⟩ : Bucket K V), 2⟩) := by
  rw [insert_from_empty h k v1]
  have hlen : ((List.replicate 1024 (Bucket.new : Bucket K V)).set (h [k] % 1024)
      (⟨[(k, v1)]⟩ : Bucket K V)).length = 1024 := by
    rw [List.length_set, List.length_replicate]
  have hcond1 : (⟨(List.replicate 1024 (Bucket.new : Bucket K V)).set (h [k] % 1024)
      (⟨[(k, v1)]⟩ : Bucket K V), (1 : Nat)⟩ : HashMap K V).buckets.length ≠ 0 := by
    show ((List.replicate 1024 (Bucket.new : Bucket K V)).set (h [k] % 1024)
      (⟨[(k, v1)]⟩ : Bucket K V)).length ≠ 0
    omega
  have hcond2 : ¬ (⟨(List.replicate 1024 (Bucket.new : Bucket K V)).set (h [k] % 1024)
      (⟨[(k, v1)]⟩ : Bucket K V), (1 : Nat)⟩ : HashMap K V).numItems
      > 3 * (⟨(List.replicate 1024 (Bucket.new : Bucket K V)).set (h [k] % 1024)
        (⟨[(k, v1)]⟩ : Bucket K V), (1 : Nat)⟩ : HashMap K V).buckets.length := by
    show ¬ (1 : Nat) > 3 * ((List.replicate 1024 (Bucket.new : Bucket K V)).set
      (h [k] % 1024) (⟨[(k, v1)]⟩ : Bucket K V)).length
    omega
  rw [insert_no_resize h _ k v2 hcond1 hcond2]
  dsimp only
  rw [hlen]
  rw [getD_set_self (List.replicate 1024 Bucket.new) (h [k] % 1024)
    (⟨[(k, v1)]⟩ : Bucket K V) Bucket.new
    (by rw [List.length_replicate]; exact Nat.mod_lt _ (by omega))]
  have hbins : (⟨[(k, v1)]⟩ : Bucket K V).insert k v2 = (some v1, ⟨[(k, v2)]⟩) := by
    simp [Bucket.insert, bucketInsert]
  rw [hbins]
  dsimp only
  rw [List.set_set]

/-- Removing the doubly inserted key: the only occupied bucket is emptied and
the counter drops from 2 to 1. -/
theorem double_insert_remove_state (h : List K → Nat) (k : K) (v1 v2 : V) :
    ((HashMap.new.insert h k v1).2.insert h k v2).2.removeRet h k
      = .ok (some v2, ⟨(List.replicate 1024 (Bucket.new : Bucket K V)).set (h [k] % 1024)
          (⟨[]⟩ : Bucket K V), 1⟩) := by
  rw [double_insert_state h k v1 v2]
  have hcond1 : (⟨(List.replicate 1024 (Bucket.new : Bucket K V)).set (h [k] % 1024)
      (⟨[(k, v2)]⟩ : Bucket K V), (2 : Nat)⟩ : HashMap K V).buckets.length ≠ 0 := by
    show ((List.replicate 1024 (Bucket.new : Bucket K V)).set (h [k] % 1024)
      (⟨[(k, v2)]⟩ : Bucket K V)).length ≠ 0
    rw [List.length_set, List.length_replicate]
    omega
  rw [removeRet_eq h _ k hcond1]
  dsimp only
  rw [List.length_set, List.length_replicate]
  rw [getD_set_self (List.replicate 1024 Bucket.new) (h [k] % 1024)
    (⟨[(k, v2)]⟩ : Bucket K V) Bucket.new
    (by rw [List.length_replicate]; exact Nat.mod_lt _ (by omega))]
  have hbrem : (⟨[(k, v2)]⟩ : Bucket K V).remove k = (some v2, ⟨[]⟩) := by
    simp [Bucket.remove, position, swapRemove]
  rw [hbrem]
  dsimp only
  rw [List.set_set]
  rfl

theorem flatten_items_length (bs : List (Bucket K V)) :
    ((bs.map Bucket.items).flatten).length = sumLenB bs := by
  rw [List.length_flatten, List.map_map]
  rfl

/-! ## Concrete instances used by the claims -/

/-- A trivial model of the opaque hasher: every digest is 0.  (Any function
of the key sequence is a legitimate model of the injectable 64-bit hashing
collaborator.) -/
def hzero : List Nat → Nat := fun _ => 0

/-- A hash model under which the fresh digest of key 2 (namely `hone [2] = 1`)
differs from the accumulated digest `hone [1, 2] = 0` that the resize loop
actually feeds to the modulo reduction. -/
def hone : List Nat → Nat := fun l => if l = [2] then 1 else 0

/-- A 2-bucket table holding `(1, 10)` and `(2, 20)`, each pair stored at its
`digest % 2` slot under `hone` (so both lookups succeed before a resize). -/
def preResizeMap : HashMap Nat Nat := ⟨[⟨[(1, 10)]⟩, ⟨[(2, 20)]⟩], 2⟩

/-! ## The claims -/

/-- C1: the claim says each pair drained during a resize is reinserted at a
slot obtained from a freshly recomputed digest of its key, so that a lookup
after the resize finds it.  In the code the hasher is created once outside
the drain loop and accumulates every key, so the slot of each pair after the
first comes from the digest of all keys drained so far: here key 2 is
findable before the resize, is still stored after the resize, but `get`
(which uses a fresh digest) routes to a different bucket and misses it. -/
theorem claim_c1_resize_misroutes_keys :
    preResizeMap.get hone 2 = .ok (some 20) ∧
    (2, 20) ∈ ((preResizeMap.resize hone).buckets.map Bucket.items).flatten ∧
    (preResizeMap.resize hone).get hone 2 = .ok none := by decide

/-- C2: the claim says `values_mut` yields one mutable reference per stored
pair.  In the code the body of `ValuesMut::next` is commented out and it
always returns `None`: after one insertion the table stores one pair, yet
the mutable-values iterator yields nothing from any cursor position. -/
theorem claim_c2_values_mut_yields_nothing (h : List K → Nat) (k : K) (v : V) :
    (HashMap.new.insert h k v).2.len = 1 ∧
    (((HashMap.new.insert h k v).2.buckets.map Bucket.items).flatten).length = 1 ∧
    ∀ bidx bat, valuesMutNext (HashMap.new.insert h k v).2 bidx bat = none := by
  refine ⟨?_, ?_, ?_⟩
  · rw [insert_from_empty h k v]
    rfl
  · rw [insert_from_empty h k v]
    dsimp only
    rw [flatten_items_length,
      sumLenB_replicate_set 1024 (h [k] % 1024) (Nat.mod_lt _ (by omega))]
    rfl
  · intro bidx bat
    unfold valuesMutNext
    split <;> rfl

/-- C3: the claim says `get` and `get_mut` on a table whose bucket array is
empty return absent without any abnormal termination.  In the code neither
has an emptiness guard, so `hasher.finish() % 0` is a remainder by zero and
the call panics. -/
theorem claim_c3_get_on_fresh_map_panics (h : List K → Nat) (k : K) :
    (HashMap.new : HashMap K V).get h k = .panicked ∧
    (HashMap.new : HashMap K V).getMut h k = .panicked :=
  ⟨rfl, rfl⟩

/-- C4 counterexample: inserting the same key twice from a fresh table gives
`num_items = 2` while the buckets hold a single pair, so the claimed equality
between `num_items` and the summed bucket counts fails in a reachable
state. -/
theorem claim_c4_counterexample :
    ¬ (((HashMap.new.insert hzero 0 0).2.insert hzero 0 0).2.numItems
        = bucketSum ((HashMap.new.insert hzero 0 0).2.insert hzero 0 0).2) := by
  rw [show ((HashMap.new.insert hzero 0 0).2.insert hzero 0 0).2
      = ⟨(List.replicate 1024 (Bucket.new : Bucket Nat Nat)).set (hzero [0] % 1024)
          (⟨[(0, 0)]⟩ : Bucket Nat Nat), 2⟩ from
    congrArg Prod.snd (double_insert_state hzero 0 0 0)]
  rw [bucketSum_eq]
  dsimp only
  rw [sumLenB_replicate_set 1024 (hzero [0] % 1024) (Nat.mod_lt _ (by omega))]
  dsimp only [List.length_cons, List.length_nil]
  omega

/-- C4 amended: in every reachable state the live-item count is at least
(not equal to) the sum of the pair counts of all buckets; equality fails as
soon as an insert overwrites an existing key, since the counter is bumped
unconditionally. -/
theorem claim_c4_amended (h : List K → Nat) {m : HashMap K V}
    (hr : Reachable h m) : bucketSum m ≤ m.numItems :=
  (reachable_inv h hr).1

/-- Witness for C4 amended at a concrete reachable state (one insert from a
fresh table). -/
theorem claim_c4_witness :
    bucketSum ((HashMap.new.insert hzero 0 5).2)
      ≤ ((HashMap.new.insert hzero 0 5).2).numItems :=
  claim_c4_amended hzero (Relation.ReflTransGen.single (Step.insert 0 5))

/-- C5: for all keys, values and table states, `insert(k, v)` immediately
followed by `get(k)` returns `v`: the insert places the pair at the slot of
the fresh digest of `k` modulo the (possibly just resized, always non-empty)
bucket count, and `get` recomputes the same slot. -/
theorem claim_c5_insert_get_roundtrip (h : List K → Nat) (m : HashMap K V)
    (k : K) (v : V) :
    (m.insert h k v).2.get h k = .ok (some v) := by
  simp only [HashMap.insert]
  exact get_after_place h k v _ (ensureBuckets_pos h _)

/-- C6: inserting an already-present key returns the previous value (here
the second insert of `k` returns `v1`), yet starting from a fresh table two
inserts of the same key leave `len()` at 2, not 1, because the counter is
incremented on every insert call. -/
theorem claim_c6_double_insert (h : List K → Nat) (k : K) (v1 v2 : V) :
    (HashMap.new.insert h k v1).1 = none ∧
    ((HashMap.new.insert h k v1).2.insert h k v2).1 = some v1 ∧
    HashMap.len ((HashMap.new.insert h k v1).2.insert h k v2).2 = 2 := by
  refine ⟨?_, ?_, ?_⟩
  · rw [insert_from_empty h k v1]
  · rw [double_insert_state h k v1 v2]
  · rw [double_insert_state h k v1 v2]
    rfl

/-- C7: the claim says `remove` of a never-inserted key returns absent and
leaves `len()` unchanged, including on a table where no insertion has ever
occurred.  On the fresh table the code panics (remainder by zero), because
`remove`, unlike `contains_key`, has no emptiness guard; on any table with a
non-empty bucket array and the key stored nowhere, it does return absent and
leaves the whole map (hence `len()`) unchanged. -/
theorem claim_c7_remove_absent (h : List K → Nat) (k : K) :
    (HashMap.new : HashMap K V).removeRet h k = .panicked ∧
    ∀ m : HashMap K V, m.buckets ≠ [] → (∀ b ∈ m.buckets, b.get k = none) →
      m.removeRet h k = .ok (none, m) := by
  constructor
  · rfl
  · intro m hne habs
    have hlen : m.buckets.length ≠ 0 := by
      intro h0
      exact hne (List.length_eq_zero.mp h0)
    rw [removeRet_eq h m k hlen]
    have hidx : h [k] % m.buckets.length < m.buckets.length :=
      Nat.mod_lt _ (by omega)
    have hmem : m.buckets.getD (h [k] % m.buckets.length) Bucket.new ∈ m.buckets := by
      rw [List.getD_eq_getElem?_getD, List.getElem?_eq_getElem hidx]
      exact List.getElem_mem _
    rw [bucket_remove_absent _ k (habs _ hmem)]
    dsimp only
    rw [set_getD_self m.buckets _ Bucket.new hidx]
    rfl

/-- Witness for C7 at a concrete table with a non-empty bucket array and an
absent key. -/
theorem claim_c7_witness :
    (⟨[⟨[(3, 5)]⟩], 1⟩ : HashMap Nat Nat).removeRet hzero 7
      = .ok (none, ⟨[⟨[(3, 5)]⟩], 1⟩) :=
  (claim_c7_remove_absent hzero 7).2 _ (by decide) (by decide)

/-- C8: the claim says the direct-index accessor (`Index::index`, i.e.
`self.get(index).unwrap()`) fails fatally when the key is absent and returns
the stored value when the key is present.  The absent-key half holds — on
`preResizeMap` the missing key 5 makes `get` report absence and `index`
panic, while the present key 2 is returned — but the present-key half is
false of the code: after the accumulating-hasher resize the pair `(2, 20)`
is still stored (and still counted), yet `get` recomputes a fresh-digest
slot, misses it, and `index` panics on a present key. -/
theorem claim_c8_index_panics_on_present_key :
    preResizeMap.index hone 2 = .ok 20 ∧
    preResizeMap.get hone 5 = .ok none ∧
    preResizeMap.index hone 5 = .panicked ∧
    (2, 20) ∈ ((preResizeMap.resize hone).buckets.map Bucket.items).flatten ∧
    (preResizeMap.resize hone).numItems = 2 ∧
    (preResizeMap.resize hone).index hone 2 = .panicked := by decide

/-- C9: in every reachable state a positive `num_items` implies a non-empty
bucket array, so `contains_key` never hits a remainder by zero: it returns
`false` without hashing exactly when `num_items` is zero, and otherwise
routes through a non-zero modulo. -/
theorem claim_c9_contains_key_total (h : List K → Nat) {m : HashMap K V}
    (hr : Reachable h m) :
    (m.numItems ≠ 0 → m.buckets ≠ []) ∧
    ∀ k, (m.numItems = 0 → m.containsKey h k = .ok false) ∧
      m.containsKey h k ≠ .panicked := by
  have hinv := reachable_inv h hr
  refine ⟨hinv.2, ?_⟩
  intro k
  constructor
  · intro h0
    unfold HashMap.containsKey
    rw [if_pos h0]
  · intro hcon
    unfold HashMap.containsKey at hcon
    by_cases h0 : m.numItems = 0
    · rw [if_pos h0] at hcon
      exact Ret.noConfusion hcon
    · rw [if_neg h0] at hcon
      have hne : m.buckets ≠ [] := hinv.2 h0
      have hlz : m.buckets.length ≠ 0 := fun hz => hne (List.length_eq_zero.mp hz)
      rw [if_neg hlz] at hcon
      exact Ret.noConfusion hcon

/-- Witness for C9 at a concrete reachable state (one insert from a fresh
table). -/
theorem claim_c9_witness :
    (((HashMap.new.insert hzero 4 4).2.numItems ≠ 0
        → (HashMap.new.insert hzero 4 4).2.buckets ≠ []) ∧
      ∀ k, ((HashMap.new.insert hzero 4 4).2.numItems = 0
          → (HashMap.new.insert hzero 4 4).2.containsKey hzero k = .ok false) ∧
        (HashMap.new.insert hzero 4 4).2.containsKey hzero k ≠ .panicked) :=
  claim_c9_contains_key_total hzero (Relation.ReflTransGen.single (Step.insert 4 4))

/-- C10: from a fresh table, inserting the same key twice and removing it
once leaves `is_empty()` false and `len()` 1 even though every bucket is
empty and the full-pair iterator yields no pairs. -/
theorem claim_c10_phantom_item (h : List K → Nat) (k : K) (v1 v2 : V) :
    ((HashMap.new.insert h k v1).2.insert h k v2).2.removeRet h k
      = .ok (some v2, ⟨(List.replicate 1024 (Bucket.new : Bucket K V)).set
          (h [k] % 1024) (⟨[]⟩ : Bucket K V), 1⟩) ∧
    (⟨(List.replicate 1024 (Bucket.new : Bucket K V)).set (h [k] % 1024)
        (⟨[]⟩ : Bucket K V), 1⟩ : HashMap K V).isEmpty = false ∧
    HashMap.len (⟨(List.replicate 1024 (Bucket.new : Bucket K V)).set (h [k] % 1024)
        (⟨[]⟩ : Bucket K V), 1⟩ : HashMap K V) = 1 ∧
    (∀ b ∈ ((List.replicate 1024 (Bucket.new : Bucket K V)).set (h [k] % 1024)
        (⟨[]⟩ : Bucket K V)), b.items = []) ∧
    ∀ fuel, iterCollect (⟨(List.replicate 1024 (Bucket.new : Bucket K V)).set
        (h [k] % 1024) (⟨[]⟩ : Bucket K V), 1⟩ : HashMap K V) 0 0 fuel = [] := by
  have hemp : ∀ b ∈ ((List.replicate 1024 (Bucket.new : Bucket K V)).set
      (h [k] % 1024) (⟨[]⟩ : Bucket K V)), b.items = [] := by
    intro b hb
    rcases mem_of_mem_set hb with hmem | hbe
    · rw [List.eq_of_mem_replicate hmem]
      rfl
    · rw [hbe]
  have hnext : iterNext (⟨(List.replicate 1024 (Bucket.new : Bucket K V)).set
      (h [k] % 1024) (⟨[]⟩ : Bucket K V), 1⟩ : HashMap K V) 0 0 = none := by
    have hne10 : ¬ (⟨(List.replicate 1024 (Bucket.new : Bucket K V)).set
        (h [k] % 1024) (⟨[]⟩ : Bucket K V), 1⟩ : HashMap K V).numItems = 0 := by
      intro hx
      exact Nat.one_ne_zero hx
    unfold iterNext
    rw [if_neg hne10]
    exact iterLoop_all_empty _ hemp 1024 0
      (by rw [show (⟨(List.replicate 1024 (Bucket.new : Bucket K V)).set
          (h [k] % 1024) (⟨[]⟩ : Bucket K V), 1⟩ : HashMap K V).buckets.length
          = ((List.replicate 1024 (Bucket.new : Bucket K V)).set
            (h [k] % 1024) (⟨[]⟩ : Bucket K V)).length from rfl,
        List.length_set, List.length_replicate])
  refine ⟨double_insert_remove_state h k v1 v2, rfl, rfl, hemp, ?_⟩
  intro fuel
  cases fuel with
  | zero => rfl
  | succ f2 => simp only [iterCollect, hnext]

end Hashmapper
